import Mathlib

/-!
# Habit100 — verification of the data model and day-indexed entry engine

Shallow embedding of `src/habit100.py` (data model + tracking engine).
Python dicts keyed by day string are modelled as association lists
(`List (String × List Entry)`); lookup is first-match, matching Python's
unique-key dict semantics while staying total on arbitrary lists.
The `val` field of an entry is the union `boolean | string` from the JSON
schema; the code discriminates with `is True` / `isinstance(..., str)`,
which we model with an inductive type.
-/

namespace Habit100

/-- The `val` field of an entry record: JSON boolean or string.
`toggle`/report test `r.get("val") is True` and `isinstance(r.get("val"), str)`,
so the discriminator is the runtime type, not the content. -/
inductive Val where
  | vbool (b : Bool)
  | vstr (s : String)
  deriving DecidableEq, Repr

/-- `isinstance(r.get("val"), str)` -/
def Val.isStr : Val → Bool
  | .vstr _ => true
  | .vbool _ => false

/-- `r.get("val") is True` -/
def Val.isTrue : Val → Bool
  | .vbool b => b
  | .vstr _ => false

/-- One entry record `{"id": int, "ts": "HH:MM:SS", "val": true|str}`. -/
structure Entry where
  id : Nat
  ts : String
  val : Val
  deriving DecidableEq, Repr

/-- One habit record `{"id", "title", "tags", "type", "active"}`. -/
structure Habit where
  id : Nat
  title : String
  tags : List String
  type : String
  active : Bool
  deriving DecidableEq, Repr

/-- The `"days"` dict of `entries.json`: day key `"YYYY-MM-DD"` to record list. -/
abbrev Days := List (String × List Entry)

/-- `days.get(k, [])`: first-match lookup with default empty list. -/
def getDay (days : Days) (k : String) : List Entry :=
  match days with
  | [] => []
  | (k', v) :: t => if k' = k then v else getDay t k

/-- `k in days` -/
def hasDay (days : Days) (k : String) : Bool :=
  match days with
  | [] => false
  | (k', _) :: t => k' = k || hasDay t k

/-- `days.setdefault(k, [])`: if the key is absent, add it (at the end,
as Python dict insertion does); the stored lists are untouched. -/
def setdefaultDay (days : Days) (k : String) : Days :=
  if hasDay days k then days else days ++ [(k, [])]

/-- In-place mutation of the list stored under key `k`
(`arr = days[k]; ...mutate arr...`). Rewrites the first match only. -/
def updateDay (days : Days) (k : String) (f : List Entry → List Entry) : Days :=
  match days with
  | [] => []
  | (k', v) :: t => if k' = k then (k', f v) :: t else (k', v) :: updateDay t k f

/-- `for d, arr in days.items(): days[d] = [r for r in arr if r["id"] != hid]`
(the cascade step of delete). -/
def filterDays (days : Days) (hid : Nat) : Days :=
  days.map fun p => (p.1, p.2.filter fun r => r.id ≠ hid)

/-- The fixed `THEMES` list driving the tag-filter cycle. -/
def THEMES : List String :=
  ["수면·환경", "몸·에너지", "정신·태도", "사회·관계", "재정·소비", "창의·학습", "정체성·자기표현"]

/-- `Store.next_id`: `max(ids) + 1` over the habit list, `1` when empty.
Python's `max` over a non-empty list is a left fold from the first element. -/
def nextId (habits : List Habit) : Nat :=
  match habits.map Habit.id with
  | [] => 1
  | x :: xs => xs.foldl max x + 1

/-- `HabitTUI.action_toggle_filter`: `None → THEMES[0]`;
`t` in the list → successor modulo length; set but unknown tag → `None`. -/
def cycleFilter (cur : Option String) : Option String :=
  match cur with
  | none => some (THEMES.headD "")
  | some t =>
    match THEMES.findIdx? (fun x => x == t) with
    | some idx => some (THEMES.getD ((idx + 1) % THEMES.length) "")
    | none => none

/-- Python `str.strip()`: drop whitespace from both ends of the character
content. (Stated on the character list so that it reduces in the kernel.) -/
def strip (s : String) : String :=
  ⟨((s.data.dropWhile Char.isWhitespace).reverse.dropWhile Char.isWhitespace).reverse⟩

/-- Python `str.split(",")`: split at every comma, keeping empty pieces
(`"".split(",") == [""]`). -/
def splitOnComma (s : String) : List String :=
  go s.data []
where
  go : List Char → List Char → List String
    | [], acc => [String.mk acc.reverse]
    | c :: cs, acc =>
      if c = ',' then String.mk acc.reverse :: go cs [] else go cs (c :: acc)

/-- Tag parsing on the edit screen:
`[t.strip() for t in value.split(",") if t.strip()]`. -/
def parseTags (s : String) : List String :=
  ((splitOnComma s).map strip).filter (· ≠ "")

/-- Type field normalisation on the edit screen:
`typ = self.type_input.value.strip() or "check"` (Python truthiness:
only the empty string falls back to `"check"`). -/
def normType (s : String) : String :=
  if strip s = "" then "check" else strip s

/-- `EditScreen.on_button_pressed`, add path: append
`{"id": next_id, "title": title.strip(), "tags": tags, "type": typ, "active": True}`.
No validation of the title is performed. -/
def addHabitOp (habits : List Habit) (titleIn tagsIn typeIn : String) : List Habit :=
  habits ++ [⟨nextId habits, strip titleIn, parseTags tagsIn, normType typeIn, true⟩]

/-- `EditScreen.on_button_pressed`, edit path: in-place
`habit.update({"title": ..., "tags": ..., "type": ...})` on the first habit
with the given id (`action_edit_habit` selects it with `next(...)`). -/
def editHabitOp (habits : List Habit) (hid : Nat) (titleIn tagsIn typeIn : String) :
    List Habit :=
  match habits with
  | [] => []
  | h :: t =>
    if h.id = hid then
      { h with title := strip titleIn, tags := parseTags tagsIn, type := normType typeIn } :: t
    else h :: editHabitOp t hid titleIn tagsIn typeIn

/-- `HabitTUI.action_delete_habit`: drop the habit from the list and filter
its id out of every day's record list. Returns (habits, entries). -/
def deleteHabitOp (habits : List Habit) (days : Days) (hid : Nat) :
    List Habit × Days :=
  (habits.filter (fun h => h.id ≠ hid), filterDays days hid)

/-- The edit path at the whole-state level: `EditScreen.on_button_pressed`
mutates only the selected habit dict; `entries_json` is not touched. -/
def editAction (habits : List Habit) (days : Days) (hid : Nat)
    (titleIn tagsIn typeIn : String) : List Habit × Days :=
  (editHabitOp habits hid titleIn tagsIn typeIn, days)

/-- The search predicate of the toggle branch:
`r["id"] == hid and r.get("val") is True`. -/
def checkRec (hid : Nat) (r : Entry) : Bool :=
  r.id == hid && r.val.isTrue

/-- Toggle on one day's record list (`HabitTUI.action_toggle_check`, check branch):
remove the first record with this id and `val is True`, else append
`{"id": hid, "ts": now, "val": True}`. `list.remove` deletes the first element
equal to the one found. -/
def toggleArr (arr : List Entry) (hid : Nat) (now : String) : List Entry :=
  match arr.find? (checkRec hid) with
  | some ex => arr.erase ex
  | none => arr ++ [⟨hid, now, Val.vbool true⟩]

/-- `HabitTUI.action_toggle_check` for the entries store: no-op when the habit
id is absent; `setdefault` the day key; toggle only for `type == "check"`
(the log branch opens an input screen and writes nothing here). -/
def actionToggleCheck (habits : List Habit) (days : Days) (hid : Nat)
    (dkey now : String) : Days :=
  match habits.find? (fun h => h.id == hid) with
  | none => days
  | some h =>
    let days1 := setdefaultDay days dkey
    if h.type = "check" then updateDay days1 dkey (fun arr => toggleArr arr hid now)
    else days1

/-- Completion state of `(habit, day)`: a record with this id and boolean-true
`val` exists under the day key. -/
def completion (days : Days) (dkey : String) (hid : Nat) : Bool :=
  (getDay days dkey).any (checkRec hid)

/-- `LogInputScreen.on_button_pressed`: if the stripped text is non-empty,
`setdefault` the day key and append `{"id", "ts": now, "val": txt}`;
otherwise nothing is written. -/
def appendLog (days : Days) (hid : Nat) (dkey now text : String) : Days :=
  let txt := strip text
  if txt = "" then days
  else updateDay (setdefaultDay days dkey) dkey (fun arr => arr ++ [⟨hid, now, Val.vstr txt⟩])

/-- `HabitTUI.today_done_ids`: ids of records for the day whose `val` is the
boolean `True` or any string — the habit's type is never consulted. -/
def todayDoneIds (days : Days) (dkey : String) : List Nat :=
  (getDay days dkey).foldl
    (fun done r => if r.val.isTrue || r.val.isStr then done.insert r.id else done) []

/-- Stable insertion by id: the new habit goes before the first strictly
greater id, after equal ids already placed (Python `sorted` is stable). -/
def insertById (h : Habit) : List Habit → List Habit
  | [] => [h]
  | x :: xs => if x.id < h.id then x :: insertById h xs else h :: x :: xs

/-- `sorted(habits, key=lambda x: x["id"])`. -/
def sortById : List Habit → List Habit
  | [] => []
  | h :: t => insertById h (sortById t)

/-- The grouping loop of `action_show_report`:
`by_id.setdefault(r["id"], []).append(r)` over the day's records, building
a dict from id to its records in stored order. -/
def groupById (arr : List Entry) : List (Nat × List Entry) :=
  arr.foldl (fun byId r => pushGroup byId r) []
where
  /-- `by_id.setdefault(i, []).append(r)` on the association list. -/
  pushGroup : List (Nat × List Entry) → Entry → List (Nat × List Entry)
    | [], r => [(r.id, [r])]
    | (i, v) :: t, r => if i = r.id then (i, v ++ [r]) :: t else (i, v) :: pushGroup t r

/-- `by_id.get(i, [])`. -/
def getGroup (byId : List (Nat × List Entry)) (i : Nat) : List Entry :=
  match byId with
  | [] => []
  | (i', v) :: t => if i' = i then v else getGroup t i

/-- One body line of the report, keeping the fields the formatted string
interpolates. `check`: `- [x] #{id} {title}`;
`log`: `- #{id} {title} — {val} ({ts})`. -/
inductive ReportLine where
  | check (hid : Nat) (title : String)
  | log (hid : Nat) (title : String) (val ts : String)
  deriving DecidableEq, Repr

/-- The habit id a report line is about. -/
def ReportLine.hid : ReportLine → Nat
  | .check i _ => i
  | .log i _ _ _ => i

/-- The per-habit body of the report loop: `check` type emits one line iff
some of its records has `val is True`; any other type emits one line per
string-valued record, in stored order. -/
def reportFor (h : Habit) (logs : List Entry) : List ReportLine :=
  if h.type = "check" then
    if logs.any (fun r => r.val.isTrue) then [ReportLine.check h.id h.title] else []
  else
    logs.filterMap fun r =>
      match r.val with
      | .vstr s => some (ReportLine.log h.id h.title s r.ts)
      | .vbool _ => none

/-- `HabitTUI.action_show_report`, body lines after the `Report {dkey}` header:
group the day's records by id; walk all habits sorted by id, skipping
inactive ones; emit each habit's lines per `reportFor`. -/
def buildReportBody (habits : List Habit) (days : Days) (dkey : String) :
    List ReportLine :=
  let byId := groupById (getDay days dkey)
  (sortById habits).flatMap fun h =>
    if !h.active then []
    else reportFor h (getGroup byId h.id)

/-- One table row of `refresh_table`: the done mark, and the id, type, title
and tags columns. -/
structure Row where
  done : Bool
  id : Nat
  type : String
  title : String
  tags : List String
  deriving DecidableEq, Repr

/-- The filter guard of `refresh_table`:
`if self.filter_tag and self.filter_tag not in (h.get("tags") or [])`
(Python truthiness: an empty-string tag does not filter). -/
def tagPasses (ftag : Option String) (tags : List String) : Bool :=
  match ftag with
  | none => true
  | some t => if t = "" then true else tags.contains t

/-- `HabitTUI.refresh_table` row construction: all habits sorted by id,
skipping inactive ones and tag-filter misses; the done mark comes from
`today_done_ids` membership. -/
def visibleRows (habits : List Habit) (days : Days) (dkey : String)
    (ftag : Option String) : List Row :=
  let done := todayDoneIds days dkey
  (sortById habits).flatMap fun h =>
    if !h.active then []
    else if !tagPasses ftag h.tags then []
    else [⟨done.contains h.id, h.id, h.type, h.title, h.tags⟩]

/-- The report rule as the specification words it: visit active habits in
ascending id order; a `check`-type habit emits a line iff some record for
the day with its id has boolean-true `val`; a `log`-type habit emits one
line per string-valued record for the day with its id, in stored order.
Spec-side formulation, to be compared with `buildReportBody`. -/
def reportSpec (habits : List Habit) (days : Days) (dkey : String) :
    List ReportLine :=
  (sortById (habits.filter (fun h => h.active))).flatMap fun h =>
    let recs := (getDay days dkey).filter fun r => r.id = h.id
    if h.type = "check" then
      if recs.any (fun r => r.val = Val.vbool true) then [ReportLine.check h.id h.title]
      else []
    else if h.type = "log" then
      recs.filterMap fun r =>
        match r.val with
        | .vstr s => some (ReportLine.log h.id h.title s r.ts)
        | .vbool _ => none
    else []

/-! ### Lemmas about the day-keyed store -/

theorem getDay_eq_nil_of_not_hasDay (days : Days) (k : String)
    (h : hasDay days k = false) : getDay days k = [] := by
  induction days with
  | nil => rfl
  | cons p t ih =>
    simp only [hasDay, Bool.or_eq_false_iff, decide_eq_false_iff_not] at h
    simp only [getDay, if_neg h.1]
    exact ih h.2

theorem getDay_append_single (days : Days) (k : String) (v : List Entry)
    (h : hasDay days k = false) : getDay (days ++ [(k, v)]) k = v := by
  induction days with
  | nil => simp [getDay]
  | cons p t ih =>
    simp only [hasDay, Bool.or_eq_false_iff, decide_eq_false_iff_not] at h
    simp only [List.cons_append, getDay, if_neg h.1]
    exact ih h.2

theorem hasDay_append (a b : Days) (k : String) :
    hasDay (a ++ b) k = (hasDay a k || hasDay b k) := by
  induction a with
  | nil => rfl
  | cons p t ih => simp [hasDay, ih, Bool.or_assoc]

theorem getDay_setdefaultDay_self (days : Days) (k : String) :
    getDay (setdefaultDay days k) k = getDay days k := by
  unfold setdefaultDay
  by_cases h : hasDay days k = true
  · simp [h]
  · simp only [Bool.not_eq_true] at h
    simp only [h, Bool.false_eq_true, if_false]
    rw [getDay_eq_nil_of_not_hasDay days k h, getDay_append_single days k [] h]

theorem hasDay_setdefaultDay_self (days : Days) (k : String) :
    hasDay (setdefaultDay days k) k = true := by
  unfold setdefaultDay
  by_cases h : hasDay days k = true
  · simp [h]
  · simp only [Bool.not_eq_true] at h
    simp only [h, Bool.false_eq_true, if_false]
    simp [hasDay_append, hasDay]

theorem getDay_updateDay_self (days : Days) (k : String)
    (f : List Entry → List Entry) (h : hasDay days k = true) :
    getDay (updateDay days k f) k = f (getDay days k) := by
  induction days with
  | nil => simp [hasDay] at h
  | cons p t ih =>
    by_cases hk : p.1 = k
    · simp [updateDay, getDay, hk]
    · simp only [hasDay, Bool.or_eq_true, decide_eq_true_eq] at h
      simp only [updateDay, getDay, if_neg hk]
      exact ih (h.resolve_left hk)

theorem hasDay_updateDay (days : Days) (k k' : String)
    (f : List Entry → List Entry) :
    hasDay (updateDay days k f) k' = hasDay days k' := by
  induction days with
  | nil => rfl
  | cons p t ih =>
    by_cases hk : p.1 = k
    · simp [updateDay, hasDay, hk]
    · simp only [updateDay, if_neg hk, hasDay]
      rw [ih]

theorem getDay_filterDays (days : Days) (hid : Nat) (k : String) :
    getDay (filterDays days hid) k = (getDay days k).filter (fun r => r.id ≠ hid) := by
  induction days with
  | nil => rfl
  | cons p t ih =>
    by_cases hk : p.1 = k
    · simp [filterDays, getDay, hk]
    · simp only [filterDays, List.map_cons, getDay, if_neg hk]
      exact ih

theorem setdefaultDay_of_hasDay (days : Days) (k : String)
    (h : hasDay days k = true) : setdefaultDay days k = days := by
  simp [setdefaultDay, h]

/-! ### Lemmas about the check toggle -/

theorem checkRec_new (hid : Nat) (now : String) :
    checkRec hid ⟨hid, now, Val.vbool true⟩ = true := by
  simp [checkRec, Val.isTrue]

theorem toggleArr_of_find?_none (arr : List Entry) (hid : Nat) (now : String)
    (h : arr.find? (checkRec hid) = none) :
    toggleArr arr hid now = arr ++ [⟨hid, now, Val.vbool true⟩] := by
  unfold toggleArr
  rw [h]

theorem toggleArr_of_find?_some (arr : List Entry) (hid : Nat) (now : String)
    (ex : Entry) (h : arr.find? (checkRec hid) = some ex) :
    toggleArr arr hid now = arr.erase ex := by
  unfold toggleArr
  rw [h]

theorem find?_append_last {p : Entry → Bool} (arr : List Entry) (e : Entry)
    (h : arr.find? p = none) (he : p e = true) :
    (arr ++ [e]).find? p = some e := by
  induction arr with
  | nil => simp [List.find?, he]
  | cons a t ih =>
    have hcons := h
    rw [List.find?_cons] at hcons
    cases hpa : p a with
    | true => simp [hpa] at hcons
    | false =>
      simp only [hpa, Bool.false_eq_true, if_false] at hcons
      simp [List.find?_cons, hpa, ih hcons]

/-- Toggling twice restores the completion state, provided at most one
record with boolean-true `val` for this id is stored for the day. -/
theorem any_toggleArr_toggleArr (arr : List Entry) (hid : Nat) (now1 now2 : String)
    (hcount : (arr.filter (checkRec hid)).length ≤ 1) :
    (toggleArr (toggleArr arr hid now1) hid now2).any (checkRec hid)
      = arr.any (checkRec hid) := by
  cases hfind : arr.find? (checkRec hid) with
  | none =>
    have hall : ∀ x ∈ arr, ¬ checkRec hid x = true := List.find?_eq_none.mp hfind
    have h1 := toggleArr_of_find?_none arr hid now1 hfind
    have hfind2 : (arr ++ [(⟨hid, now1, Val.vbool true⟩ : Entry)]).find? (checkRec hid)
        = some ⟨hid, now1, Val.vbool true⟩ :=
      find?_append_last arr _ hfind (checkRec_new hid now1)
    have hnotmem : (⟨hid, now1, Val.vbool true⟩ : Entry) ∉ arr := fun hmem =>
      hall _ hmem (checkRec_new hid now1)
    have h2 : toggleArr (arr ++ [⟨hid, now1, Val.vbool true⟩]) hid now2 = arr := by
      rw [toggleArr_of_find?_some _ hid now2 _ hfind2,
        List.erase_append_right _ hnotmem]
      simp
    rw [h1, h2]
  | some ex =>
    have hex_mem : ex ∈ arr := List.mem_of_find?_eq_some hfind
    have hex_p : checkRec hid ex = true := List.find?_some hfind
    have hany : arr.any (checkRec hid) = true :=
      List.any_eq_true.mpr ⟨ex, hex_mem, hex_p⟩
    have h1 := toggleArr_of_find?_some arr hid now1 ex hfind
    have hperm : arr.Perm (ex :: arr.erase ex) := List.perm_cons_erase hex_mem
    have hlen : (arr.filter (checkRec hid)).length
        = ((ex :: arr.erase ex).filter (checkRec hid)).length :=
      (hperm.filter (checkRec hid)).length_eq
    rw [List.filter_cons_of_pos hex_p] at hlen
    have hnil : (arr.erase ex).filter (checkRec hid) = [] := by
      have : ((arr.erase ex).filter (checkRec hid)).length = 0 := by
        simp only [List.length_cons] at hlen
        omega
      exact List.length_eq_zero.mp this
    have hfind2 : (arr.erase ex).find? (checkRec hid) = none :=
      List.find?_eq_none.mpr (List.filter_eq_nil_iff.mp hnil)
    have h2 := toggleArr_of_find?_none (arr.erase ex) hid now2 hfind2
    rw [h1, h2, hany, List.any_append]
    simp [checkRec_new]

/-! ### Lemmas about the left max fold (Python `max` over a list) -/

theorem foldl_max_mem (xs : List Nat) (x : Nat) :
    xs.foldl max x = x ∨ xs.foldl max x ∈ xs := by
  induction xs generalizing x with
  | nil => exact Or.inl rfl
  | cons a t ih =>
    simp only [List.foldl_cons]
    rcases ih (max x a) with h | h
    · rcases max_choice x a with hm | hm
      · exact Or.inl (h.trans hm)
      · refine Or.inr ?_
        rw [h, hm]
        exact List.mem_cons_self a t
    · exact Or.inr (List.mem_cons_of_mem a h)

theorem le_foldl_max (xs : List Nat) (x : Nat) :
    x ≤ xs.foldl max x ∧ ∀ y ∈ xs, y ≤ xs.foldl max x := by
  induction xs generalizing x with
  | nil => simp
  | cons a t ih =>
    simp only [List.foldl_cons]
    refine ⟨le_trans (le_max_left x a) (ih (max x a)).1, ?_⟩
    intro y hy
    rcases List.mem_cons.mp hy with rfl | hy'
    · exact le_trans (le_max_right x y) (ih (max x y)).1
    · exact (ih (max x a)).2 y hy'

/-! ### Lemmas about the edit path -/

theorem editHabitOp_append (pre : List Habit) (h : Habit) (suf : List Habit)
    (t g ty : String) (hpre : ∀ x ∈ pre, x.id ≠ h.id) :
    editHabitOp (pre ++ h :: suf) h.id t g ty
      = pre ++ { h with title := strip t, tags := parseTags g, type := normType ty } :: suf := by
  induction pre with
  | nil => simp [editHabitOp]
  | cons a p ih =>
    have ha : a.id ≠ h.id := hpre a (List.mem_cons_self a p)
    simp only [List.cons_append, editHabitOp, if_neg ha, List.append_eq]
    rw [ih (fun x hx => hpre x (List.mem_cons_of_mem a hx))]

/-! ### Lemmas about the stable sort by id -/

theorem mem_insertById {y h : Habit} {L : List Habit} :
    y ∈ insertById h L ↔ y = h ∨ y ∈ L := by
  induction L with
  | nil => simp [insertById]
  | cons x xs ih =>
    by_cases hx : x.id < h.id
    · simp only [insertById, if_pos hx, List.mem_cons, ih]
      tauto
    · simp only [insertById, if_neg hx, List.mem_cons]

theorem mem_sortById {y : Habit} {l : List Habit} : y ∈ sortById l ↔ y ∈ l := by
  induction l with
  | nil => simp [sortById]
  | cons h t ih => simp [sortById, mem_insertById, ih]

theorem pairwise_insertById (h : Habit) (L : List Habit)
    (hL : L.Pairwise (fun a b : Habit => a.id ≤ b.id)) :
    (insertById h L).Pairwise (fun a b : Habit => a.id ≤ b.id) := by
  induction L with
  | nil => simp [insertById]
  | cons x xs ih =>
    rcases List.pairwise_cons.mp hL with ⟨hx, hxs⟩
    by_cases hlt : x.id < h.id
    · simp only [insertById, if_pos hlt]
      refine List.pairwise_cons.mpr ⟨?_, ih hxs⟩
      intro y hy
      rcases mem_insertById.mp hy with rfl | hy'
      · exact Nat.le_of_lt hlt
      · exact hx y hy'
    · simp only [insertById, if_neg hlt]
      refine List.pairwise_cons.mpr ⟨?_, hL⟩
      intro y hy
      rcases List.mem_cons.mp hy with rfl | hy'
      · exact Nat.le_of_not_lt hlt
      · exact le_trans (Nat.le_of_not_lt hlt) (hx y hy')

theorem pairwise_sortById (l : List Habit) :
    (sortById l).Pairwise (fun a b : Habit => a.id ≤ b.id) := by
  induction l with
  | nil => simp [sortById]
  | cons h t ih => exact pairwise_insertById h (sortById t) ih

theorem insertById_perm (h : Habit) (L : List Habit) :
    List.Perm (insertById h L) (h :: L) := by
  induction L with
  | nil => exact List.Perm.refl _
  | cons x xs ih =>
    by_cases hlt : x.id < h.id
    · simp only [insertById, if_pos hlt]
      exact (ih.cons x).trans (List.Perm.swap h x xs)
    · simp only [insertById, if_neg hlt]
      exact List.Perm.refl _

theorem sortById_perm (l : List Habit) : List.Perm (sortById l) l := by
  induction l with
  | nil => exact List.Perm.refl _
  | cons h t ih => exact (insertById_perm h (sortById t)).trans (ih.cons h)

theorem insertById_eq_cons (h : Habit) (M : List Habit)
    (hM : ∀ y ∈ M, ¬ y.id < h.id) : insertById h M = h :: M := by
  cases M with
  | nil => rfl
  | cons x xs =>
    simp only [insertById, if_neg (hM x (List.mem_cons_self x xs))]

theorem filter_insertById (p : Habit → Bool) (h : Habit) (L : List Habit)
    (hL : L.Pairwise (fun a b : Habit => a.id ≤ b.id)) :
    (insertById h L).filter p
      = if p h then insertById h (L.filter p) else L.filter p := by
  induction L with
  | nil => cases hp : p h <;> simp [insertById, List.filter, hp]
  | cons x xs ih =>
    rcases List.pairwise_cons.mp hL with ⟨hx, hxs⟩
    by_cases hlt : x.id < h.id
    · simp only [insertById, if_pos hlt]
      cases hpx : p x with
      | true =>
        rw [List.filter_cons_of_pos hpx, ih hxs]
        cases hph : p h with
        | true =>
          simp only [if_pos]
          rw [List.filter_cons_of_pos hpx]
          simp [insertById, if_pos hlt]
        | false =>
          simp only [Bool.false_eq_true, if_false]
          rw [List.filter_cons_of_pos hpx]
      | false =>
        rw [List.filter_cons_of_neg (by simp [hpx]), ih hxs,
          List.filter_cons_of_neg (by simp [hpx])]
    · simp only [insertById, if_neg hlt]
      cases hph : p h with
      | true =>
        rw [List.filter_cons_of_pos hph, if_pos rfl]
        refine (insertById_eq_cons h _ ?_).symm
        intro y hy
        have hy' := (List.mem_filter.mp hy).1
        rcases List.mem_cons.mp hy' with rfl | hym
        · exact hlt
        · exact Nat.not_lt.mpr (le_trans (Nat.le_of_not_lt hlt) (hx y hym))
      | false =>
        rw [List.filter_cons_of_neg (by simp [hph])]
        simp

theorem filter_sortById (p : Habit → Bool) (l : List Habit) :
    (sortById l).filter p = sortById (l.filter p) := by
  induction l with
  | nil => rfl
  | cons h t ih =>
    show (insertById h (sortById t)).filter p = sortById ((h :: t).filter p)
    rw [filter_insertById p h (sortById t) (pairwise_sortById t), ih]
    cases hph : p h with
    | true =>
      rw [if_pos rfl, List.filter_cons_of_pos hph]
      rfl
    | false =>
      rw [if_neg (by simp), List.filter_cons_of_neg (by simp [hph])]

/-- A guarded flat map over a list equals the flat map over its filtering:
the `continue`-style skips inside the Python loops. -/
theorem flatMap_guard {β : Type} (l : List Habit) (p : Habit → Bool)
    (f : Habit → List β) :
    (l.flatMap fun h => if !(p h) then [] else f h) = (l.filter p).flatMap f := by
  induction l with
  | nil => rfl
  | cons a t ih =>
    cases hpa : p a with
    | true =>
      rw [List.flatMap_cons, List.filter_cons_of_pos hpa, List.flatMap_cons, ih]
      simp [hpa]
    | false =>
      rw [List.flatMap_cons, List.filter_cons_of_neg (by simp [hpa]), ih]
      simp [hpa]

/-! ### The report grouping dict is per-id filtering in stored order -/

theorem getGroup_pushGroup (acc : List (Nat × List Entry)) (r : Entry) (i : Nat) :
    getGroup (groupById.pushGroup acc r) i
      = getGroup acc i ++ (if r.id = i then [r] else []) := by
  induction acc with
  | nil =>
    by_cases h : r.id = i <;> simp [groupById.pushGroup, getGroup, h]
  | cons q t ih =>
    obtain ⟨j, v⟩ := q
    by_cases hj : j = r.id
    · by_cases hi : j = i
      · have hri : r.id = i := hj.symm.trans hi
        simp [groupById.pushGroup, getGroup, hj, hi, hri]
      · have hri : ¬ r.id = i := fun hc => hi (hj.trans hc)
        simp [groupById.pushGroup, getGroup, hj, hi, hri]
    · by_cases hi : j = i
      · have hri : ¬ r.id = i := fun hc => hj (hi.trans hc.symm)
        have hir : ¬ i = r.id := fun hc => hri hc.symm
        simp [groupById.pushGroup, getGroup, hj, hi, hri, hir]
      · simp [groupById.pushGroup, getGroup, hj, hi, ih]

theorem getGroup_groupById (arr : List Entry) (i : Nat) :
    getGroup (groupById arr) i = arr.filter (fun r => r.id = i) := by
  suffices hgen : ∀ acc, getGroup (arr.foldl groupById.pushGroup acc) i
      = getGroup acc i ++ arr.filter (fun r => r.id = i) by
    simpa [groupById, getGroup] using hgen []
  induction arr with
  | nil => intro acc; simp
  | cons r t ih =>
    intro acc
    rw [List.foldl_cons, ih (groupById.pushGroup acc r), getGroup_pushGroup]
    by_cases h : r.id = i
    · rw [List.filter_cons_of_pos (by simp [h]), if_pos h, List.append_assoc]
      rfl
    · rw [List.filter_cons_of_neg (by simp [h]), if_neg h, List.append_nil]

/-! ### Derived helpers -/

theorem flatMap_congr_mem {α β : Type} (l : List α) {f g : α → List β}
    (h : ∀ x ∈ l, f x = g x) : l.flatMap f = l.flatMap g := by
  induction l with
  | nil => rfl
  | cons a t ih =>
    rw [List.flatMap_cons, List.flatMap_cons, h a (List.mem_cons_self a t),
      ih (fun x hx => h x (List.mem_cons_of_mem a hx))]

/-- The report body in flat form: flat map of `reportFor` over the active
habits sorted by id, each applied to the day's records for its id. -/
theorem buildReportBody_eq_flat (habits : List Habit) (days : Days) (dkey : String) :
    buildReportBody habits days dkey
      = (sortById (habits.filter (fun h => h.active))).flatMap
          (fun h => reportFor h ((getDay days dkey).filter (fun r => r.id = h.id))) := by
  show (sortById habits).flatMap
      (fun h => if !h.active then []
        else reportFor h (getGroup (groupById (getDay days dkey)) h.id)) = _
  have hfun : (fun h : Habit => if !h.active then []
        else reportFor h (getGroup (groupById (getDay days dkey)) h.id))
      = (fun h : Habit => if !h.active then []
        else reportFor h ((getDay days dkey).filter (fun r => r.id = h.id))) :=
    funext fun h => by rw [getGroup_groupById]
  rw [hfun, flatMap_guard (sortById habits) Habit.active
      (fun h => reportFor h ((getDay days dkey).filter (fun r => r.id = h.id))),
    filter_sortById]

/-- Every report body line carries the id of some habit in the list, and a
record for the day justifying it. -/
theorem of_mem_buildReportBody {l : ReportLine} {habits : List Habit}
    {days : Days} {dkey : String} (hl : l ∈ buildReportBody habits days dkey) :
    ∃ h ∈ habits, h.active = true ∧ l.hid = h.id ∧
      ((h.type = "check" ∧ ∃ r ∈ getDay days dkey, r.id = h.id ∧ r.val.isTrue = true)
        ∨ (h.type ≠ "check" ∧ ∃ r ∈ getDay days dkey, r.id = h.id ∧ r.val.isStr = true)) := by
  rw [buildReportBody_eq_flat] at hl
  rcases List.mem_flatMap.mp hl with ⟨h, hmem, hin⟩
  have hh := List.mem_filter.mp (mem_sortById.mp hmem)
  refine ⟨h, hh.1, hh.2, ?_⟩
  unfold reportFor at hin
  by_cases ht : h.type = "check"
  · rw [if_pos ht] at hin
    cases hany : (getDay days dkey).filter (fun r => r.id = h.id)
        |>.any (fun r => r.val.isTrue) with
    | false => rw [hany] at hin; simp at hin
    | true =>
      rw [hany] at hin
      simp only [if_true] at hin
      rcases List.mem_singleton.mp hin with rfl
      rcases List.any_eq_true.mp hany with ⟨r, hr, hrv⟩
      have hr' := List.mem_filter.mp hr
      exact ⟨rfl, Or.inl ⟨ht, r, hr'.1, by simpa using hr'.2, hrv⟩⟩
  · rw [if_neg ht] at hin
    rcases List.mem_filterMap.mp hin with ⟨r, hr, hsome⟩
    have hr' := List.mem_filter.mp hr
    cases hv : r.val with
    | vbool b => rw [hv] at hsome; simp at hsome
    | vstr s =>
      rw [hv] at hsome
      simp only [Option.some_inj] at hsome
      subst hsome
      exact ⟨rfl, Or.inr ⟨ht, r, hr'.1, by simpa using hr'.2, by rw [hv]; rfl⟩⟩

/-- Every table row carries the id of some habit in the list. -/
theorem of_mem_visibleRows {row : Row} {habits : List Habit} {days : Days}
    {dkey : String} {ftag : Option String}
    (hr : row ∈ visibleRows habits days dkey ftag) :
    ∃ h ∈ habits, row.id = h.id := by
  unfold visibleRows at hr
  rcases List.mem_flatMap.mp hr with ⟨h, hmem, hin⟩
  refine ⟨h, mem_sortById.mp hmem, ?_⟩
  by_cases ha : (!h.active) = true
  · rw [if_pos ha] at hin; simp at hin
  · rw [if_neg ha] at hin
    by_cases htag : (!tagPasses ftag h.tags) = true
    · rw [if_pos htag] at hin; simp at hin
    · rw [if_neg htag] at hin
      rcases List.mem_singleton.mp hin with rfl
      rfl

theorem findIdx?_eq_none_of_forall {α : Type} {p : α → Bool} :
    ∀ (l : List α) (i : Nat), (∀ x ∈ l, p x = false) → l.findIdx? p i = none := by
  intro l
  induction l with
  | nil => intro i _; rfl
  | cons x xs ih =>
    intro i h
    rw [List.findIdx?_cons, h x (List.mem_cons_self x xs)]
    simp only [Bool.false_eq_true, if_false]
    exact ih (i + 1) (fun y hy => h y (List.mem_cons_of_mem x hy))

theorem mem_todayDone_fold (arr : List Entry) (acc : List Nat) (hid : Nat) :
    (hid ∈ arr.foldl
        (fun done r => if r.val.isTrue || r.val.isStr then done.insert r.id else done) acc)
      ↔ hid ∈ acc ∨ ∃ r ∈ arr, r.id = hid ∧ (r.val.isTrue || r.val.isStr) = true := by
  induction arr generalizing acc with
  | nil => simp
  | cons r t ih =>
    rw [List.foldl_cons, ih]
    cases hc : (r.val.isTrue || r.val.isStr) with
    | true =>
      simp only [hc, if_true, List.mem_insert_iff]
      constructor
      · rintro (h | h)
        · rcases h with rfl | h
          · exact Or.inr ⟨r, List.mem_cons_self r t, rfl, hc⟩
          · exact Or.inl h
        · rcases h with ⟨r', hr', hid', hv'⟩
          exact Or.inr ⟨r', List.mem_cons_of_mem r hr', hid', hv'⟩
      · rintro (h | ⟨r', hr', hid', hv'⟩)
        · exact Or.inl (Or.inr h)
        · rcases List.mem_cons.mp hr' with rfl | hr''
          · exact Or.inl (Or.inl hid'.symm)
          · exact Or.inr ⟨r', hr'', hid', hv'⟩
    | false =>
      simp only [hc, Bool.false_eq_true, if_false]
      constructor
      · rintro (h | ⟨r', hr', hid', hv'⟩)
        · exact Or.inl h
        · exact Or.inr ⟨r', List.mem_cons_of_mem r hr', hid', hv'⟩
      · rintro (h | ⟨r', hr', hid', hv'⟩)
        · exact Or.inl h
        · rcases List.mem_cons.mp hr' with rfl | hr''
          · rw [hv'] at hc; cases hc
          · exact Or.inr ⟨r', hr'', hid', hv'⟩

theorem val_isTrue_iff (v : Val) : v.isTrue = true ↔ v = Val.vbool true := by
  cases v with
  | vbool b => cases b <;> simp [Val.isTrue]
  | vstr s => simp [Val.isTrue]

/-! ## Claims -/

/-- C1 (counterexample): with two boolean-true records for habit 1 under day
"2024-01-01", the habit exists with type `check`, yet toggling twice flips
the completion state from done to not-done — the claimed involution fails
for every such store. -/
theorem toggle_check_involution_cex :
    completion
        (actionToggleCheck [⟨1, "Sleep", [], "check", true⟩]
          (actionToggleCheck [⟨1, "Sleep", [], "check", true⟩]
            [("2024-01-01",
              [⟨1, "08:00:00", Val.vbool true⟩, ⟨1, "09:00:00", Val.vbool true⟩])]
            1 "2024-01-01" "10:00:00")
          1 "2024-01-01" "11:00:00") "2024-01-01" 1
      ≠ completion
          [("2024-01-01",
            [⟨1, "08:00:00", Val.vbool true⟩, ⟨1, "09:00:00", Val.vbool true⟩])]
          "2024-01-01" 1 := by
  decide

/-- C1 (amended): for a check-type habit present in the habit list, and a day
whose stored records hold at most one boolean-true entry for the habit — the
invariant the toggle itself maintains — applying `toggle_check` twice returns
the `(habit, day)` completion state to its original value. -/
theorem toggle_check_completion_involution
    (habits : List Habit) (days : Days) (hid : Nat) (dkey now1 now2 : String)
    (h : Habit) (hfind : habits.find? (fun x => x.id == hid) = some h)
    (htype : h.type = "check")
    (hcount : ((getDay days dkey).filter (checkRec hid)).length ≤ 1) :
    completion
        (actionToggleCheck habits
          (actionToggleCheck habits days hid dkey now1) hid dkey now2) dkey hid
      = completion days dkey hid := by
  have step : ∀ (d : Days) (now : String),
      actionToggleCheck habits d hid dkey now
        = updateDay (setdefaultDay d dkey) dkey (fun arr => toggleArr arr hid now) := by
    intro d now
    unfold actionToggleCheck
    rw [hfind]
    dsimp only
    rw [if_pos htype]
  have hget : ∀ (d : Days) (now : String),
      getDay (actionToggleCheck habits d hid dkey now) dkey
        = toggleArr (getDay d dkey) hid now := by
    intro d now
    rw [step, getDay_updateDay_self _ _ _ (hasDay_setdefaultDay_self d dkey),
      getDay_setdefaultDay_self]
  unfold completion
  rw [hget, hget]
  exact any_toggleArr_toggleArr _ hid now1 now2 hcount

/-- C1 (witness): the amended involution at a concrete store holding exactly
one true record for habit 1. -/
theorem toggle_check_completion_involution_witness :
    completion
        (actionToggleCheck [⟨1, "Sleep", [], "check", true⟩]
          (actionToggleCheck [⟨1, "Sleep", [], "check", true⟩]
            [("2024-01-01", [⟨1, "08:00:00", Val.vbool true⟩])]
            1 "2024-01-01" "10:00:00")
          1 "2024-01-01" "11:00:00") "2024-01-01" 1
      = completion [("2024-01-01", [⟨1, "08:00:00", Val.vbool true⟩])]
          "2024-01-01" 1 :=
  toggle_check_completion_involution _ _ 1 _ "10:00:00" "11:00:00"
    ⟨1, "Sleep", [], "check", true⟩ (by decide) rfl (by decide)

/-- C2: `delete_habit` removes the habit with the given id from the list and
every entry record with that id under every day key, keeps everything else,
leaves no row or report line carrying that id, and is a no-op on the habit
list when the id is absent. -/
theorem delete_habit_cascade
    (habits : List Habit) (days : Days) (hid : Nat) (dkey : String)
    (ftag : Option String) :
    (∀ h ∈ (deleteHabitOp habits days hid).1, h.id ≠ hid) ∧
    (∀ h ∈ habits, h.id ≠ hid → h ∈ (deleteHabitOp habits days hid).1) ∧
    (∀ k : String, ∀ r ∈ getDay (deleteHabitOp habits days hid).2 k, r.id ≠ hid) ∧
    (∀ k : String, ∀ r ∈ getDay days k, r.id ≠ hid →
      r ∈ getDay (deleteHabitOp habits days hid).2 k) ∧
    (∀ row ∈ visibleRows (deleteHabitOp habits days hid).1
        (deleteHabitOp habits days hid).2 dkey ftag, row.id ≠ hid) ∧
    (∀ l ∈ buildReportBody (deleteHabitOp habits days hid).1
        (deleteHabitOp habits days hid).2 dkey, l.hid ≠ hid) ∧
    ((∀ h ∈ habits, h.id ≠ hid) → (deleteHabitOp habits days hid).1 = habits) := by
  have hhab : ∀ h ∈ (deleteHabitOp habits days hid).1, h.id ≠ hid := by
    intro h hh
    have := (List.mem_filter.mp hh).2
    simpa using this
  refine ⟨hhab, ?_, ?_, ?_, ?_, ?_, ?_⟩
  · intro h hh hne
    exact List.mem_filter.mpr ⟨hh, by simpa using hne⟩
  · intro k r hr
    rw [show (deleteHabitOp habits days hid).2 = filterDays days hid from rfl,
      getDay_filterDays] at hr
    have := (List.mem_filter.mp hr).2
    simpa using this
  · intro k r hr hne
    rw [show (deleteHabitOp habits days hid).2 = filterDays days hid from rfl,
      getDay_filterDays]
    exact List.mem_filter.mpr ⟨hr, by simpa using hne⟩
  · intro row hrow
    rcases of_mem_visibleRows hrow with ⟨h, hh, hrid⟩
    rw [hrid]
    exact hhab h hh
  · intro l hl
    rcases of_mem_buildReportBody hl with ⟨h, hh, _, hlid, _⟩
    rw [hlid]
    exact hhab h hh
  · intro hnone
    refine List.filter_eq_self.mpr ?_
    intro h hh
    simpa using hnone h hh

/-- C2 (witness): deleting an id absent from the habit list leaves the habit
list unchanged (applied at a concrete store). -/
theorem delete_habit_cascade_witness :
    (deleteHabitOp [⟨1, "Read", [], "check", true⟩]
      [("2024-01-01", [⟨1, "08:00:00", Val.vbool true⟩])] 9).1
      = [⟨1, "Read", [], "check", true⟩] :=
  (delete_habit_cascade [⟨1, "Read", [], "check", true⟩]
    [("2024-01-01", [⟨1, "08:00:00", Val.vbool true⟩])] 9 "2024-01-01"
    none).2.2.2.2.2.2 (by decide)

/-- C3 (counterexample): the filter cycle maps the last theme back to the
first theme, not to `None`, and maps a set-but-unknown tag to `None`, not to
the first theme — both against the claim. -/
theorem cycle_filter_cex :
    cycleFilter (some "정체성·자기표현") ≠ none ∧
    cycleFilter (some "미지정태그") ≠ some "수면·환경" := by
  constructor <;> decide

/-- C3 (amended): `None` maps to the first theme; theme `i` maps to theme
`i+1` for `i+1 < n`; the last theme wraps to the first theme (never back to
`None`); a set tag that is not a member of the theme list maps to `None`. -/
theorem cycle_filter_spec :
    cycleFilter none = some (THEMES.getD 0 "") ∧
    (∀ i < THEMES.length - 1,
      cycleFilter (some (THEMES.getD i "")) = some (THEMES.getD (i + 1) "")) ∧
    cycleFilter (some (THEMES.getD (THEMES.length - 1) ""))
      = some (THEMES.getD 0 "") ∧
    (∀ t : String, t ∉ THEMES → cycleFilter (some t) = none) := by
  refine ⟨by decide, by decide, by decide, ?_⟩
  intro t ht
  have hnone : THEMES.findIdx? (fun x => x == t) = none := by
    apply findIdx?_eq_none_of_forall
    intro x hx
    cases hxt : x == t with
    | true => exact absurd (beq_iff_eq.mp hxt ▸ hx) ht
    | false => rfl
  unfold cycleFilter
  dsimp only
  rw [hnone]

/-- C3 (witness): the amended transition at concrete inputs — the first theme
steps to the second, and an unknown tag resets to no filter. -/
theorem cycle_filter_spec_witness :
    cycleFilter (some (THEMES.getD 0 "")) = some (THEMES.getD 1 "") ∧
    cycleFilter (some "미등록") = none :=
  ⟨cycle_filter_spec.2.1 0 (by decide), cycle_filter_spec.2.2.2 "미등록" (by decide)⟩

/-- C4 (counterexample): a title that trims to empty is not dropped — add
appends a habit whose title is the empty string, and edit overwrites the
targeted habit's title with the empty string. -/
theorem empty_title_dropped_cex :
    addHabitOp [] "   " "" "" ≠ [] ∧
    (addHabitOp [] "   " "" "").map Habit.title = [""] ∧
    editHabitOp [⟨1, "Read", [], "check", true⟩] 1 "  " "" "check"
      = [⟨1, "", [], "check", true⟩] := by
  refine ⟨?_, ?_, ?_⟩ <;> decide

/-- C4 (amended): no title validation is performed: when the title trims to
empty, add still appends a habit whose title is the empty string, and edit
still replaces the targeted habit's title with the empty string. -/
theorem empty_title_stored :
    (∀ (habits : List Habit) (t g ty : String), strip t = "" →
      addHabitOp habits t g ty
        = habits ++ [⟨nextId habits, "", parseTags g, normType ty, true⟩]) ∧
    (∀ (pre : List Habit) (h : Habit) (suf : List Habit) (t g ty : String),
      strip t = "" → (∀ x ∈ pre, x.id ≠ h.id) →
      editHabitOp (pre ++ h :: suf) h.id t g ty
        = pre ++ (⟨h.id, "", parseTags g, normType ty, h.active⟩ : Habit) :: suf) := by
  constructor
  · intro habits t g ty ht
    unfold addHabitOp
    rw [ht]
  · intro pre h suf t g ty ht hpre
    rw [editHabitOp_append pre h suf t g ty hpre, ht]

/-- C4 (witness): the empty-title outcomes at concrete inputs. -/
theorem empty_title_stored_witness :
    addHabitOp [] " " "" "" = [⟨1, "", [], "check", true⟩] ∧
    editHabitOp [⟨1, "Read", [], "check", true⟩] 1 " " "" "log"
      = [⟨1, "", [], "log", true⟩] := by
  constructor
  · exact (empty_title_stored.1 [] " " "" "" (by decide)).trans (by decide)
  · exact (empty_title_stored.2 [] ⟨1, "Read", [], "check", true⟩ [] " " "" "log"
      (by decide) (by simp)).trans (by decide)

/-- C5: `next_id` returns 1 on an empty habit list; otherwise it returns one
more than an id attained by some habit, and exceeds every existing id — the
maximum plus one. -/
theorem next_id_spec (habits : List Habit) :
    (habits = [] → nextId habits = 1) ∧
    (∀ h ∈ habits, h.id < nextId habits) ∧
    (habits ≠ [] → ∃ h ∈ habits, nextId habits = h.id + 1) := by
  refine ⟨?_, ?_, ?_⟩
  · rintro rfl
    rfl
  · intro h hh
    cases hm : habits.map Habit.id with
    | nil =>
      rw [List.map_eq_nil_iff] at hm
      rw [hm] at hh
      cases hh
    | cons x xs =>
      have hnext : nextId habits = xs.foldl max x + 1 := by
        unfold nextId
        rw [hm]
      rw [hnext]
      have hmem : h.id ∈ habits.map Habit.id := List.mem_map_of_mem Habit.id hh
      rw [hm] at hmem
      rcases List.mem_cons.mp hmem with he | he
      · have := (le_foldl_max xs x).1
        omega
      · have := (le_foldl_max xs x).2 h.id he
        omega
  · intro hne
    cases hm : habits.map Habit.id with
    | nil => exact absurd (List.map_eq_nil_iff.mp hm) hne
    | cons x xs =>
      have hnext : nextId habits = xs.foldl max x + 1 := by
        unfold nextId
        rw [hm]
      rcases foldl_max_mem xs x with he | he
      · have hx : x ∈ habits.map Habit.id := by
          rw [hm]; exact List.mem_cons_self x xs
        rcases List.mem_map.mp hx with ⟨h, hh, hid⟩
        exact ⟨h, hh, by rw [hnext, he, hid]⟩
      · have hx : xs.foldl max x ∈ habits.map Habit.id := by
          rw [hm]; exact List.mem_cons_of_mem x he
        rcases List.mem_map.mp hx with ⟨h, hh, hid⟩
        exact ⟨h, hh, by rw [hnext, hid]⟩

/-- C5 (witness): for existing ids {1, 3} the next id is 4 (not 2), and the
maximum is attained. -/
theorem next_id_spec_witness :
    nextId [⟨1, "A", [], "check", true⟩, ⟨3, "B", [], "log", true⟩] = 4 ∧
    ∃ h ∈ [⟨1, "A", [], "check", true⟩, (⟨3, "B", [], "log", true⟩ : Habit)],
      nextId [⟨1, "A", [], "check", true⟩, ⟨3, "B", [], "log", true⟩] = h.id + 1 :=
  ⟨by decide,
    (next_id_spec [⟨1, "A", [], "check", true⟩, ⟨3, "B", [], "log", true⟩]).2.2
      (by decide)⟩

/-- C6: for a log-type habit, appending a log with text that trims non-empty
extends the day's record sequence by exactly one record
`{id, ts=now, val=trimmed text}` at the end, removing nothing; text that
trims to empty leaves the entries store unchanged. -/
theorem append_log_spec (days : Days) (h : Habit) (dkey now text : String)
    (htype : h.type = "log") :
    (strip text ≠ "" →
      getDay (appendLog days h.id dkey now text) dkey
        = getDay days dkey ++ [⟨h.id, now, Val.vstr (strip text)⟩] ∧
      (getDay (appendLog days h.id dkey now text) dkey).length
        = (getDay days dkey).length + 1 ∧
      ∀ r ∈ getDay days dkey, r ∈ getDay (appendLog days h.id dkey now text) dkey) ∧
    (strip text = "" → appendLog days h.id dkey now text = days) := by
  constructor
  · intro hne
    have hmain : getDay (appendLog days h.id dkey now text) dkey
        = getDay days dkey ++ [⟨h.id, now, Val.vstr (strip text)⟩] := by
      unfold appendLog
      rw [if_neg hne, getDay_updateDay_self _ _ _ (hasDay_setdefaultDay_self days dkey),
        getDay_setdefaultDay_self]
    refine ⟨hmain, by rw [hmain]; simp, ?_⟩
    intro r hr
    rw [hmain]
    exact List.mem_append_left _ hr
  · intro he
    unfold appendLog
    rw [if_pos he]

/-- C6 (witness): appending "great" then "tired" for habit 2 retains both in
order; blank text changes nothing. -/
theorem append_log_spec_witness :
    getDay (appendLog [("2024-01-01", [⟨2, "08:00:00", Val.vstr "great"⟩])]
        2 "2024-01-01" "09:00:00" " tired ") "2024-01-01"
      = [⟨2, "08:00:00", Val.vstr "great"⟩, ⟨2, "09:00:00", Val.vstr "tired"⟩] ∧
    appendLog [("2024-01-01", [⟨2, "08:00:00", Val.vstr "great"⟩])]
        2 "2024-01-01" "09:00:00" "   "
      = [("2024-01-01", [⟨2, "08:00:00", Val.vstr "great"⟩])] := by
  constructor
  · exact ((append_log_spec [("2024-01-01", [⟨2, "08:00:00", Val.vstr "great"⟩])]
      ⟨2, "Mood", [], "log", true⟩ "2024-01-01" "09:00:00" " tired " rfl).1
      (by decide)).1.trans (by decide)
  · exact (append_log_spec [("2024-01-01", [⟨2, "08:00:00", Val.vstr "great"⟩])]
      ⟨2, "Mood", [], "log", true⟩ "2024-01-01" "09:00:00" "   " rfl).2 (by decide)

/-- C7: when every habit's type is one of `"check"` and `"log"`, the report
body computed by the code (grouping dict, sorted walk with inactive skips)
equals the specification formulation (active habits in ascending id order;
a check line iff a boolean-true record exists — a string `"true"` does not
count; one log line per string record in stored order); moreover the sorted
walk is ascending in id and a permutation of the habit list. -/
theorem build_report_matches_spec (habits : List Habit) (days : Days)
    (dkey : String) (htypes : ∀ h ∈ habits, h.type = "check" ∨ h.type = "log") :
    buildReportBody habits days dkey = reportSpec habits days dkey ∧
    (sortById habits).Pairwise (fun a b : Habit => a.id ≤ b.id) ∧
    List.Perm (sortById habits) habits := by
  refine ⟨?_, pairwise_sortById habits, sortById_perm habits⟩
  rw [buildReportBody_eq_flat]
  unfold reportSpec
  apply flatMap_congr_mem
  intro h hmem
  have hh : h ∈ habits := (List.mem_filter.mp (mem_sortById.mp hmem)).1
  unfold reportFor
  rcases htypes h hh with ht | ht
  · rw [if_pos ht, if_pos ht]
    have hf : (fun r : Entry => r.val.isTrue)
        = (fun r : Entry => decide (r.val = Val.vbool true)) := by
      funext r
      cases r.val with
      | vbool b => cases b <;> rfl
      | vstr s => rfl
    rw [hf]
  · have hne : ¬ h.type = "check" := by
      rw [ht]
      decide
    rw [if_neg hne, if_neg hne, if_pos ht]

/-- C7 (witness): the equality at a concrete store where a check-type habit
has only a string `"true"` record (no check line) and a log-type habit has
two string records (two log lines in order). -/
theorem build_report_matches_spec_witness :
    buildReportBody
        [⟨1, "Sleep", [], "check", true⟩, ⟨2, "Mood", [], "log", true⟩]
        [("2024-01-01",
          [⟨2, "07:00:00", Val.vstr "great"⟩, ⟨1, "08:00:00", Val.vstr "true"⟩,
            ⟨2, "09:00:00", Val.vstr "tired"⟩])]
        "2024-01-01"
      = reportSpec
          [⟨1, "Sleep", [], "check", true⟩, ⟨2, "Mood", [], "log", true⟩]
          [("2024-01-01",
            [⟨2, "07:00:00", Val.vstr "great"⟩, ⟨1, "08:00:00", Val.vstr "true"⟩,
              ⟨2, "09:00:00", Val.vstr "tired"⟩])]
          "2024-01-01" :=
  (build_report_matches_spec _ _ _ (by decide)).1

/-- C8 (counterexample): an unrecognized type string is stored verbatim, not
defaulted to `"check"` — only the empty input defaults. -/
theorem add_habit_type_cex :
    (addHabitOp [] "Stretch" "" "foo").map Habit.type ≠ ["check"] ∧
    (addHabitOp [] "Stretch" "" "foo").map Habit.type = ["foo"] := by
  constructor <;> decide

/-- C8 (amended): the habit stored by add gets type `"check"` exactly when
the input type string strips to empty; any other stripped input string —
recognized or not — is stored verbatim. -/
theorem add_habit_type_default (habits : List Habit) (t g ty : String) :
    (strip ty = "" →
      (addHabitOp habits t g ty).getLast?
        = some ⟨nextId habits, strip t, parseTags g, "check", true⟩) ∧
    (strip ty ≠ "" →
      (addHabitOp habits t g ty).getLast?
        = some ⟨nextId habits, strip t, parseTags g, strip ty, true⟩) := by
  constructor
  · intro h
    unfold addHabitOp
    rw [List.getLast?_concat]
    unfold normType
    rw [if_pos h]
  · intro h
    unfold addHabitOp
    rw [List.getLast?_concat]
    unfold normType
    rw [if_neg h]

/-- C8 (witness): blank type input defaults to `"check"`; the unrecognized
input `" foo "` is stored stripped, as `"foo"`. -/
theorem add_habit_type_default_witness :
    (addHabitOp [] "Walk" "" "  ").getLast? = some ⟨1, "Walk", [], "check", true⟩ ∧
    (addHabitOp [] "Walk" "" " foo ").getLast? = some ⟨1, "Walk", [], "foo", true⟩ := by
  constructor
  · exact ((add_habit_type_default [] "Walk" "" "  ").1 (by decide)).trans (by decide)
  · exact ((add_habit_type_default [] "Walk" "" " foo ").2 (by decide)).trans (by decide)

/-- C9: edit replaces exactly the title, tags and type of the targeted habit;
its id and active flag, every other habit, and the entire entries store are
unchanged. -/
theorem edit_habit_frame (pre : List Habit) (h : Habit) (suf : List Habit)
    (days : Days) (t g ty : String) (hpre : ∀ x ∈ pre, x.id ≠ h.id) :
    editAction (pre ++ h :: suf) days h.id t g ty
      = (pre ++ (⟨h.id, strip t, parseTags g, normType ty, h.active⟩ : Habit) :: suf,
          days) := by
  unfold editAction
  rw [editHabitOp_append pre h suf t g ty hpre]

/-- C9 (witness): editing a deactivated habit changes title/tags/type only;
`active = false`, the id, a sibling habit, and the entries store survive. -/
theorem edit_habit_frame_witness :
    editAction
        [⟨1, "Read", ["a"], "check", false⟩, ⟨2, "Run", [], "check", true⟩]
        [("d", [⟨1, "t", Val.vbool true⟩])] 2 " Study " "x,y" " log "
      = ([⟨1, "Read", ["a"], "check", false⟩, ⟨2, "Study", ["x", "y"], "log", true⟩],
          [("d", [⟨1, "t", Val.vbool true⟩])]) :=
  (edit_habit_frame [⟨1, "Read", ["a"], "check", false⟩]
    ⟨2, "Run", [], "check", true⟩ [] [("d", [⟨1, "t", Val.vbool true⟩])]
    " Study " "x,y" " log " (by decide)).trans (by decide)

/-- C10: the done indicator marks an id iff some record for the day carries
that id with boolean-true or string-typed `val`, never consulting the
habit's type; in particular a check-type habit whose only records for the
day are string-valued is marked done although the report body has no line
for it. -/
theorem today_done_ids_spec :
    (∀ (days : Days) (dkey : String) (hid : Nat),
      hid ∈ todayDoneIds days dkey
        ↔ ∃ r ∈ getDay days dkey, r.id = hid ∧
            (r.val = Val.vbool true ∨ r.val.isStr = true)) ∧
    (∀ (habits : List Habit) (days : Days) (dkey : String) (h : Habit),
      h ∈ habits →
      (∀ h' ∈ habits, h'.id = h.id → h'.type = "check") →
      (∀ r ∈ getDay days dkey, r.id = h.id → r.val.isStr = true) →
      (∃ r ∈ getDay days dkey, r.id = h.id) →
      h.id ∈ todayDoneIds days dkey ∧
        ∀ l ∈ buildReportBody habits days dkey, l.hid ≠ h.id) := by
  have hmem : ∀ (days : Days) (dkey : String) (hid : Nat),
      hid ∈ todayDoneIds days dkey
        ↔ ∃ r ∈ getDay days dkey, r.id = hid ∧
            (r.val = Val.vbool true ∨ r.val.isStr = true) := by
    intro days dkey hid
    unfold todayDoneIds
    rw [mem_todayDone_fold]
    constructor
    · rintro (h | ⟨r, hr, hrid, hv⟩)
      · cases h
      · refine ⟨r, hr, hrid, ?_⟩
        rcases (Bool.or_eq_true _ _).mp hv with h1 | h1
        · exact Or.inl ((val_isTrue_iff r.val).mp h1)
        · exact Or.inr h1
    · rintro ⟨r, hr, hrid, hv⟩
      refine Or.inr ⟨r, hr, hrid, ?_⟩
      rcases hv with h1 | h1
      · rw [(val_isTrue_iff r.val).mpr h1]
        rfl
      · rw [h1, Bool.or_true]
  refine ⟨hmem, ?_⟩
  intro habits days dkey h hh huniq hstr hex
  rcases hex with ⟨r0, hr0, hr0id⟩
  constructor
  · exact (hmem days dkey h.id).mpr ⟨r0, hr0, hr0id, Or.inr (hstr r0 hr0 hr0id)⟩
  · intro l hl hcon
    rcases of_mem_buildReportBody hl with ⟨h', hh', _, hlid, hbranch⟩
    have hid' : h'.id = h.id := by rw [← hlid, hcon]
    rcases hbranch with ⟨_, r, hr, hrid, hrtrue⟩ | ⟨htnc, _⟩
    · have hs : r.val.isStr = true := hstr r hr (by rw [hrid, hid'])
      cases hv : r.val with
      | vbool b =>
        rw [hv] at hs
        cases hs
      | vstr s =>
        rw [hv] at hrtrue
        cases hrtrue
    · exact htnc (huniq h' hh' hid')

/-- C10 (witness): habit 1 is check-type, its only record for the day is the
string "note": it is marked done, yet the report body has no line for id 1. -/
theorem today_done_ids_spec_witness :
    (1 : Nat) ∈ todayDoneIds [("d", [⟨1, "t", Val.vstr "note"⟩])] "d" ∧
    ∀ l ∈ buildReportBody [⟨1, "W", [], "check", true⟩]
        [("d", [⟨1, "t", Val.vstr "note"⟩])] "d", l.hid ≠ 1 :=
  today_done_ids_spec.2 [⟨1, "W", [], "check", true⟩]
    [("d", [⟨1, "t", Val.vstr "note"⟩])] "d" ⟨1, "W", [], "check", true⟩
    (by decide) (by decide) (by decide) ⟨⟨1, "t", Val.vstr "note"⟩, by decide, rfl⟩

end Habit100
